import Mathlib

/-!
Shallow embedding of the troopjs-core event engine
(`src/event/emitter.js`, `src/pubsub/hub.js`).

Modelling conventions:
* JS values flowing through handlers are the inductive `V`
  (undefined, numbers, strings, arrays).
* Object identity (contexts, callbacks, handler nodes) is modelled by
  natural-number ids.  A handler's `context` and `callback` fields are
  immutable in the source, so a handler node is the triple
  (id, context id, callback id); its mutable `handled` stamp lives in a
  separate id-keyed store (`stamps`), mirroring the fact that the
  candidate snapshot holds references into shared mutable handler
  objects.
* Callback behaviour is a parameter `cbs : callback id → this → args →
  Except JsErr V`; a thrown exception and a rejected future are both
  modelled as `Except.error` (the `when` library channels both into
  rejection of the dispatch's promise).
* Runners additionally return the invocation trace (which callback was
  applied, with which `this` and which argument list) so that theorems
  can speak about which handlers were invoked and with what arguments.
-/

namespace Troop

/-- JS values passed to/returned from handlers. -/
inductive V : Type where
  | undefined : V
  | num (n : Int) : V
  | str (s : String) : V
  | arr (l : List V) : V

/-- Failures: the two explicit `throw new Error(...)` sites of the source,
the TypeError raised by `Function.prototype.apply` on an invalid
argArray, and handler-originated rejections (carrying a code). -/
inductive JsErr : Type where
  | unknownRunner (name : String) : JsErr
  | noCallback : JsErr
  | typeError : JsErr
  | handlerErr (n : Nat) : JsErr
deriving DecidableEq

/-- A handler node of the chain: allocation id (for the shared `handled`
stamp store), the bound context object (`none` = undefined) and the
callback. `callback`/`context` never change after `on` creates the node. -/
structure HNode : Type where
  id : Nat
  ctx : Option Nat
  cb : Nat
deriving DecidableEq

/-- Per-event chain: the handler list (head to tail; `[]` = no HEAD),
the chain-level `handled` epoch counter and the memorized `memory`
value (`none` = the MEMORY property is absent). -/
structure Chain : Type where
  hs : List HNode
  handled : Nat
  memory : Option V

/-- Whole-emitter state: the HANDLERS registry, the per-handler
`handled` stamp store, the `phase` property of each context object and
the next fresh handler id. -/
structure EmState : Type where
  events : List (String × Chain)
  stamps : List (Nat × Nat)
  phases : List (Nat × String)
  fresh : Nat

/-- Association-list lookup (JS object property read). -/
def alook {α β : Type} [DecidableEq α] : List (α × β) → α → Option β
  | [], _ => none
  | (k', v) :: t, k => if k' = k then some v else alook t k

/-- Association-list update (JS object property write). -/
def aset {α β : Type} [DecidableEq α] : List (α × β) → α → β → List (α × β)
  | [], k, v => [(k, v)]
  | (k', v') :: t, k, v => if k' = k then (k, v) :: t else (k', v') :: aset t k v

/-- `\w` of the source's regexes: ASCII letters, digits, underscore. -/
def isWordChar (c : Char) : Bool := c.isAlphanum || c = '_'

/-- `RE_RUNNER = /^(.+)(?::(\w+))/` applied to the event name, as the
pair (capture 1, capture 2) on success.  The greedy `.+` places the
split at the LAST colon that is immediately followed by a word
character; capture 2 is the maximal word-character run after that colon
(the regex has no end anchor, so trailing non-word characters are
dropped).  Event names are assumed free of line terminators (which `.`
would not match). -/
def reRunnerExec : List Char → Option (List Char × List Char)
  | [] => none
  | a :: rest =>
    match reRunnerExec rest with
    | some (p, r) => some (a :: p, r)
    | none =>
      match rest with
      | b :: c :: w =>
        if b = ':' && isWordChar c then some ([a], (c :: w).takeWhile isWordChar) else none
      | _ => none

/-- `RE_PHASE = /^(?:initi|fin)alized?$/`: its language is exactly these
four strings ("initi"/"fin" + "alize" + optional "d", anchored both
ends).  In particular "initializing"/"finalizing" do NOT match. -/
def rePhase (s : String) : Bool :=
  s == "initialize" || s == "initialized" || s == "finalize" || s == "finalized"

/-- Interpretation of callbacks: callback id, `this`, argument list. -/
abbrev Cbs := Nat → Option Nat → List V → Except JsErr V

/-- `Function.prototype.apply`'s conversion of its argArray argument
(ES5.1 §15.3.4.3): undefined means no arguments, an array supplies its
elements, any other (primitive) value raises a TypeError. -/
def applyArgs : V → Except JsErr (List V)
  | .undefined => .ok []
  | .arr l => .ok l
  | _ => .error .typeError

/-- Invocation record: callback id, `this`, actual argument list. -/
abbrev Inv := Nat × Option Nat × List V

/-- What a runner returns: the settled value of the promise it built,
the updated stamp store, the value written to the chain's MEMORY (none
if the run aborted before exhaustion) and the invocation trace. -/
structure RunOut : Type where
  res : Except JsErr V
  stamps : List (Nat × Nat)
  memWrite : Option V
  trace : List Inv

/-- The emitter's `sequence` runner (emitter.js lines 57-85): the inner
`next` function threaded over the remaining candidates.  Every reached
candidate is stamped with the epoch, then its callback is applied to
the (fixed) `args`; results accumulate in invocation order; at
exhaustion `handlers[MEMORY] = args` and the promise resolves with the
results array. -/
def emSeqGo (cbs : Cbs) (handled : Nat) (args : V) :
    List HNode → List (Nat × Nat) → List V → List Inv → RunOut
  | [], stamps, results, tr => ⟨.ok (.arr results), stamps, some args, tr⟩
  | h :: rest, stamps, results, tr =>
    let stamps' := aset stamps h.id handled
    match applyArgs args with
    | .error e => ⟨.error e, stamps', none, tr⟩
    | .ok l =>
      match cbs h.cb h.ctx l with
      | .error e => ⟨.error e, stamps', none, tr ++ [(h.cb, h.ctx, l)]⟩
      | .ok r => emSeqGo cbs handled args rest stamps' (results ++ [r]) (tr ++ [(h.cb, h.ctx, l)])

/-- Is this candidate's bound context in a blocked lifecycle phase?
Mirrors hub.js's `(context = candidate[CONTEXT]) && RE_PHASE.test(context[PHASE])`:
a falsy (absent) context, or an absent `phase` property (whose string
coercion "undefined" never matches RE_PHASE), is not blocked. -/
def blocked (phases : List (Nat × String)) (h : HNode) : Bool :=
  match h.ctx with
  | none => false
  | some c =>
    match alook phases c with
    | none => false
    | some p => rePhase p

/-- The hub's phase-aware `sequence` runner (hub.js lines 52-87): like
the emitter's, but the candidate-advancing loop skips (without stamping,
invoking or recording) every candidate whose context is in a blocked
phase. -/
def hubSeqGo (cbs : Cbs) (phases : List (Nat × String)) (handled : Nat) (args : V) :
    List HNode → List (Nat × Nat) → List V → List Inv → RunOut
  | [], stamps, results, tr => ⟨.ok (.arr results), stamps, some args, tr⟩
  | h :: rest, stamps, results, tr =>
    if blocked phases h then
      hubSeqGo cbs phases handled args rest stamps results tr
    else
      let stamps' := aset stamps h.id handled
      match applyArgs args with
      | .error e => ⟨.error e, stamps', none, tr⟩
      | .ok l =>
        match cbs h.cb h.ctx l with
        | .error e => ⟨.error e, stamps', none, tr ++ [(h.cb, h.ctx, l)]⟩
        | .ok r => hubSeqGo cbs phases handled args rest stamps' (results ++ [r]) (tr ++ [(h.cb, h.ctx, l)])

/-- The hub's `pipeline` runner (hub.js lines 98-131): `next(result)`
replaces `args` by the previous result unless that result is undefined,
skips blocked candidates, stamps and applies the chosen candidate with
the threaded `args` (via `Function.prototype.apply`, hence the array
destructuring / TypeError behaviour of `applyArgs`), and at exhaustion
writes the threaded `args` to MEMORY and resolves with it. -/
def pipeGo (cbs : Cbs) (phases : List (Nat × String)) (handled : Nat) :
    V → List HNode → List (Nat × Nat) → List Inv → RunOut
  | args, [], stamps, tr => ⟨.ok args, stamps, some args, tr⟩
  | args, h :: rest, stamps, tr =>
    if blocked phases h then
      pipeGo cbs phases handled args rest stamps tr
    else
      let stamps' := aset stamps h.id handled
      match applyArgs args with
      | .error e => ⟨.error e, stamps', none, tr⟩
      | .ok l =>
        match cbs h.cb h.ctx l with
        | .error e => ⟨.error e, stamps', none, tr ++ [(h.cb, h.ctx, l)]⟩
        | .ok r =>
          pipeGo cbs phases handled (match r with | .undefined => args | _ => r) rest stamps' (tr ++ [(h.cb, h.ctx, l)])

/-- Runner signature: callbacks, context phases, candidate snapshot,
epoch stamp, initial args, stamp store. -/
abbrev RunnerT :=
  Cbs → List (Nat × String) → List HNode → Nat → V → List (Nat × Nat) → RunOut

/-- Entry points in runner form. -/
def emSeqR : RunnerT := fun cbs _ cands handled args stamps =>
  emSeqGo cbs handled args cands stamps [] []

def hubSeqR : RunnerT := fun cbs ph cands handled args stamps =>
  hubSeqGo cbs ph handled args cands stamps [] []

def pipeR : RunnerT := fun cbs ph cands handled args stamps =>
  pipeGo cbs ph handled args cands stamps []

/-- A runner table: the named entries plus the `default` entry (kept
separately so `runners[DEFAULT]` is total; for both concrete tables
below it coincides with the "default" named entry). -/
structure RTable : Type where
  named : List (String × RunnerT)
  dflt : RunnerT

/-- emitter.js `runners`: sequence, default = sequence. -/
def emitterTable : RTable :=
  ⟨[("sequence", emSeqR), ("default", emSeqR)], emSeqR⟩

/-- hub.js `runners` (the merge of the emitter's table with the hub's
overrides): pipeline, phase-aware sequence, default = pipeline. -/
def hubTable : RTable :=
  ⟨[("pipeline", pipeR), ("sequence", hubSeqR), ("default", pipeR)], pipeR⟩

/-- What a dispatch (emit / reemit and the hub renames) returns: the
promise's settled value, the updated emitter state, and the runner's
invocation trace. -/
structure DOut : Type where
  res : Except JsErr V
  st : EmState
  trace : List Inv

/-- The common tail of `emit` after runner resolution (emitter.js lines
262-291): read the chain (creating `{handled: 0}` if the event is new),
snapshot the full handler list as candidates, pre-increment the chain's
`handled`, run the runner with the sliced argument array, and commit
the runner's stamp/memory writes. -/
def emitDispatch (r : RunnerT) (cbs : Cbs) (st : EmState) (ev : String) (args : List V) : DOut :=
  let ch := (alook st.events ev).getD ⟨[], 0, none⟩
  let handled := ch.handled + 1
  let out := r cbs st.phases ch.hs handled (.arr args) st.stamps
  let mem := match out.memWrite with | some m => some m | none => ch.memory
  ⟨out.res, { st with events := aset st.events ev ⟨ch.hs, handled, mem⟩, stamps := out.stamps }, out.trace⟩

/-- `emit(event, ...args)` (emitter.js lines 240-292) parameterized by
the runner table: resolve an `event:runner` suffix via RE_RUNNER — an
unregistered runner name throws `unknown runner` before the registry is
touched — then dispatch. -/
def emitWith (tbl : RTable) (cbs : Cbs) (st : EmState) (event : String) (args : List V) : DOut :=
  match reRunnerExec event.toList with
  | some (evC, rnC) =>
    let rn := String.mk rnC
    match alook tbl.named rn with
    | none => ⟨.error (.unknownRunner rn), st, []⟩
    | some r => emitDispatch r cbs st (String.mk evC) args
  | none => emitDispatch tbl.dflt cbs st event args

/-- Does this handler match the (optional) context/callback filter?
Mirrors the two labeled-break tests shared by `off`, `reemit` and
`republish`: an absent argument matches everything, a present one is
compared by identity. -/
def hMatches (ctx cb : Option Nat) (h : HNode) : Bool :=
  (match ctx with | none => true | some c => h.ctx == some c) &&
  (match cb with | none => true | some c => h.cb == c)

/-- The survivor scan of `off` (emitter.js lines 183-210): a handler is
dropped iff it passes both match tests; survivors are relinked in
order. -/
def offScan (ctx cb : Option Nat) : List HNode → List HNode
  | [] => []
  | h :: t => if hMatches ctx cb h then offScan ctx cb t else h :: offScan ctx cb t

/-- The candidate collection of `reemit`/`republish` (emitter.js lines
356-376, hub.js lines 222-242): keep a handler iff it matches the
context/callback filter and (its stamp differs from the chain's current
epoch, or `senile`). -/
def reemitCands (ctx cb : Option Nat) (handled : Nat) (senile : Bool)
    (stamps : List (Nat × Nat)) : List HNode → List HNode
  | [] => []
  | h :: t =>
    if hMatches ctx cb h && !(alook stamps h.id == some handled && !senile) then
      h :: reemitCands ctx cb handled senile stamps t
    else
      reemitCands ctx cb handled senile stamps t

/-- The common tail of `reemit` after runner resolution (emitter.js
lines 343-391): reuse the chain's current `handled` (no increment),
filter candidates, and run the runner with the memorized arguments
(`handlers[MEMORY]`, undefined when absent).  An unknown event gets a
fresh `{handled: 0}` chain and an empty candidate list. -/
def reemitDispatch (r : RunnerT) (cbs : Cbs) (st : EmState) (ev : String)
    (senile : Bool) (ctx cb : Option Nat) : DOut :=
  match alook st.events ev with
  | some ch =>
    let out := r cbs st.phases (reemitCands ctx cb ch.handled senile st.stamps ch.hs)
      ch.handled (ch.memory.getD .undefined) st.stamps
    let mem := match out.memWrite with | some m => some m | none => ch.memory
    ⟨out.res, { st with events := aset st.events ev ⟨ch.hs, ch.handled, mem⟩, stamps := out.stamps }, out.trace⟩
  | none =>
    let out := r cbs st.phases [] 0 .undefined st.stamps
    let mem := match out.memWrite with | some m => some m | none => none
    ⟨out.res, { st with events := aset st.events ev ⟨[], 0, mem⟩, stamps := out.stamps }, out.trace⟩

/-- `reemit(event, senile, context, callback)` (emitter.js lines
323-392) parameterized by the runner table. -/
def reemitWith (tbl : RTable) (cbs : Cbs) (st : EmState) (event : String)
    (senile : Bool) (ctx cb : Option Nat) : DOut :=
  match reRunnerExec event.toList with
  | some (evC, rnC) =>
    let rn := String.mk rnC
    match alook tbl.named rn with
    | none => ⟨.error (.unknownRunner rn), st, []⟩
    | some r => reemitDispatch r cbs st (String.mk evC) senile ctx cb
  | none => reemitDispatch tbl.dflt cbs st event senile ctx cb

/-- `on(event, context, callback)` (emitter.js lines 104-154): throws
when the callback is absent, otherwise appends a fresh handler at the
tail (creating the chain with `handled = 0` if the event is new) and
returns the emitter (modelled by returning the updated state). -/
def onE (st : EmState) (ev : String) (ctx : Option Nat) (cb : Option Nat) :
    Except JsErr Unit × EmState :=
  match cb with
  | none => (.error .noCallback, st)
  | some c =>
    let h : HNode := ⟨st.fresh, ctx, c⟩
    let st' := { st with fresh := st.fresh + 1 }
    match alook st'.events ev with
    | some ch => (.ok (), { st' with events := aset st'.events ev ⟨ch.hs ++ [h], ch.handled, ch.memory⟩ })
    | none => (.ok (), { st' with events := aset st'.events ev ⟨[h], 0, none⟩ })

/-- `off(event, context, callback)` (emitter.js lines 165-230): a no-op
for an unknown event; otherwise replaces the handler list by the
survivor scan, leaving the chain entry (epoch, memory) in the registry
even when nothing survives.  Returns the emitter (the updated state). -/
def offE (st : EmState) (ev : String) (ctx cb : Option Nat) : EmState :=
  match alook st.events ev with
  | none => st
  | some ch => { st with events := aset st.events ev ⟨offScan ctx cb ch.hs, ch.handled, ch.memory⟩ }

/-- `peek(event)` (emitter.js lines 399-413, duplicated in hub.js):
the memorized value, undefined when the event or its MEMORY is absent. -/
def peekE (st : EmState) (ev : String) : V :=
  match alook st.events ev with
  | none => .undefined
  | some ch => ch.memory.getD .undefined

/-- The emitter API: `emit` with the emitter's runner table. -/
def emitE (cbs : Cbs) (st : EmState) (ev : String) (args : List V) : DOut :=
  emitWith emitterTable cbs st ev args

/-- The emitter API: `reemit` with the emitter's runner table. -/
def reemitE (cbs : Cbs) (st : EmState) (ev : String) (senile : Bool) (ctx cb : Option Nat) : DOut :=
  reemitWith emitterTable cbs st ev senile ctx cb

/-- Hub `publish` = the inherited `emit` with the hub's runner table
(default pipeline). -/
def publishH (cbs : Cbs) (st : EmState) (ev : String) (args : List V) : DOut :=
  emitWith hubTable cbs st ev args

/-- Hub `republish(event, context, callback, senile)` (hub.js lines
189-258): same algorithm as `reemit`, hub runner table, permuted
argument order. -/
def republishH (cbs : Cbs) (st : EmState) (ev : String) (ctx cb : Option Nat) (senile : Bool) : DOut :=
  reemitWith hubTable cbs st ev senile ctx cb

/-- Hub `subscribe` is the emitter's `on`. -/
def subscribeH (st : EmState) (ev : String) (ctx : Option Nat) (cb : Option Nat) :
    Except JsErr Unit × EmState :=
  onE st ev ctx cb

/-- Hub `unsubscribe` is the emitter's `off`. -/
def unsubscribeH (st : EmState) (ev : String) (ctx cb : Option Nat) : EmState :=
  offE st ev ctx cb

/-- The chain-level epoch counter of an event (0 when the chain does
not exist yet, matching the `handled: 0` a fresh chain gets). -/
def chainHandled (st : EmState) (ev : String) : Nat :=
  match alook st.events ev with
  | some ch => ch.handled
  | none => 0

/-- The event name an `emit` call will actually dispatch to, if the
call dispatches at all (`none` = unknown-runner throw). -/
def emitTarget (tbl : RTable) (event : String) : Option String :=
  match reRunnerExec event.toList with
  | some (evC, rnC) =>
    match alook tbl.named (String.mk rnC) with
    | none => none
    | some _ => some (String.mk evC)
  | none => some event

/-- One emitter operation, for stating invariants over arbitrary call
sequences. -/
inductive Op : Type where
  | opOn (ev : String) (ctx : Option Nat) (cb : Option Nat) : Op
  | opOff (ev : String) (ctx cb : Option Nat) : Op
  | opEmit (ev : String) (args : List V) : Op
  | opReemit (ev : String) (senile : Bool) (ctx cb : Option Nat) : Op

/-- State transition of one emitter operation. -/
def opStep (cbs : Cbs) : Op → EmState → EmState
  | .opOn ev ctx cb, st => (onE st ev ctx cb).2
  | .opOff ev ctx cb, st => offE st ev ctx cb
  | .opEmit ev args, st => (emitE cbs st ev args).st
  | .opReemit ev senile ctx cb, st => (reemitE cbs st ev senile ctx cb).st

/-- The emitter's sequence runner interleaved with arbitrary external
mutations of the emitter state: before each candidate's turn the next
mutation (modelling `on`/`off`/other calls made while the previous
handler's future was pending) is applied, yet the runner keeps walking
the candidate snapshot it was given.  Returns the invocation trace and
the final state. -/
def emSeqInter (cbs : Cbs) (handled : Nat) (args : V) :
    List HNode → List (EmState → EmState) → EmState → List Inv × EmState
  | [], _, st => ([], st)
  | h :: rest, muts, st =>
    let st1 := (muts.headD id) st
    let st2 := { st1 with stamps := aset st1.stamps h.id handled }
    match applyArgs args with
    | .error _ => ([], st2)
    | .ok l =>
      match cbs h.cb h.ctx l with
      | .error _ => ([(h.cb, h.ctx, l)], st2)
      | .ok _ =>
        let p := emSeqInter cbs handled args rest muts.tail st2
        ((h.cb, h.ctx, l) :: p.1, p.2)

/-- A concrete callback environment for witnesses/counterexamples:
callback id 1 returns the scalar 5, id 2 returns undefined, id 7
returns 9, id 9 fails, anything else returns undefined. -/
def cbs0 : Cbs := fun i _ _ =>
  if i = 1 then .ok (.num 5)
  else if i = 7 then .ok (.num 9)
  else if i = 9 then .error (.handlerErr 99)
  else .ok .undefined

/-- The empty emitter state. -/
def st0 : EmState := ⟨[], [], [], 0⟩

/-- Two context-free subscribers on "evt": callback 1 (returns the
scalar 5) then callback 2. -/
def stAB : EmState := (onE (onE st0 "evt" none (some 1)).2 "evt" none (some 2)).2

/-- A subscriber bound to context 1 whose phase is "initializing". -/
def stP : EmState :=
  { (onE st0 "evt" (some 1) (some 7)).2 with phases := [(1, "initializing")] }

/-- One subscriber (callback 7) on "evt", never dispatched. -/
def stS : EmState := (onE st0 "evt" none (some 7)).2

/-- `stS` after `emit("evt", 3)`: memory [3], subscriber stamped. -/
def stSD : EmState := (emitE cbs0 stS "evt" [.num 3]).st

/-- `stSD` plus a late subscriber (callback 2). -/
def stSDB : EmState := (onE stSD "evt" none (some 2)).2

/-- A chain with memorized [1] and a failing late subscriber
(callback 9). -/
def stF : EmState :=
  (onE (emitE cbs0 (onE st0 "evt" none (some 2)).2 "evt" [.num 1]).st "evt" none (some 9)).2

/-! ## Helper lemmas -/

theorem alook_aset_self {α β : Type} [DecidableEq α] (l : List (α × β)) (k : α) (v : β) :
    alook (aset l k v) k = some v := by
  induction l with
  | nil => simp [aset, alook]
  | cons p t ih =>
    by_cases h : p.1 = k
    · simp [aset, alook, h]
    · simpa [aset, alook, h] using ih

theorem alook_aset_ne {α β : Type} [DecidableEq α] (l : List (α × β)) (k k' : α) (v : β)
    (h : k' ≠ k) : alook (aset l k v) k' = alook l k' := by
  have hk : ¬ (k = k') := fun hh => h hh.symm
  induction l with
  | nil => simp [aset, alook, hk]
  | cons p t ih =>
    by_cases hp : p.1 = k
    · subst hp
      simp [aset, alook, hk]
    · simp only [aset, if_neg hp, alook]
      by_cases hp' : p.1 = k'
      · simp [hp']
      · simp [hp', ih]

/-- The hub sequence runner ignores blocked candidates entirely: running
it on a snapshot equals running it on the snapshot with the blocked
candidates filtered out. -/
theorem hubSeqGo_filter (cbs : Cbs) (ph : List (Nat × String)) (handled : Nat) (args : V)
    (cands : List HNode) (stamps : List (Nat × Nat)) (results : List V) (tr : List Inv) :
    hubSeqGo cbs ph handled args cands stamps results tr =
      hubSeqGo cbs ph handled args (cands.filter (fun h => !blocked ph h)) stamps results tr := by
  induction cands generalizing stamps results tr with
  | nil => rfl
  | cons h t ih =>
    by_cases hb : blocked ph h
    · simpa [hubSeqGo, hb, List.filter_cons] using ih stamps results tr
    · have hb' : blocked ph h = false := by simpa using hb
      rw [List.filter_cons]
      simp only [hb', Bool.not_false, if_pos]
      simp only [hubSeqGo, hb', Bool.false_eq_true, if_false]
      cases hA : applyArgs args with
      | error e => rfl
      | ok l =>
        dsimp only
        cases hC : cbs h.cb h.ctx l with
        | error e => rfl
        | ok r => exact ih _ _ _

/-- Likewise for the pipeline runner. -/
theorem pipeGo_filter (cbs : Cbs) (ph : List (Nat × String)) (handled : Nat) (args : V)
    (cands : List HNode) (stamps : List (Nat × Nat)) (tr : List Inv) :
    pipeGo cbs ph handled args cands stamps tr =
      pipeGo cbs ph handled args (cands.filter (fun h => !blocked ph h)) stamps tr := by
  induction cands generalizing args stamps tr with
  | nil => rfl
  | cons h t ih =>
    by_cases hb : blocked ph h
    · simpa [pipeGo, hb, List.filter_cons] using ih args stamps tr
    · have hb' : blocked ph h = false := by simpa using hb
      rw [List.filter_cons]
      simp only [hb', Bool.not_false, if_pos]
      simp only [pipeGo, hb', Bool.false_eq_true, if_false]
      cases hA : applyArgs args with
      | error e => rfl
      | ok l =>
        dsimp only
        cases hC : cbs h.cb h.ctx l with
        | error e => rfl
        | ok r => exact ih _ _ _

/-- The emitter sequence runner's invocation trace: the accumulators
(stamp store, result list, trace prefix) do not influence which
callbacks get invoked. -/
theorem emSeqGo_trace_acc (cbs : Cbs) (handled : Nat) (args : V) (cands : List HNode)
    (stamps stamps2 : List (Nat × Nat)) (results results2 : List V) (tr : List Inv) :
    (emSeqGo cbs handled args cands stamps results tr).trace =
      tr ++ (emSeqGo cbs handled args cands stamps2 results2 []).trace := by
  induction cands generalizing stamps stamps2 results results2 tr with
  | nil => simp [emSeqGo]
  | cons h t ih =>
    simp only [emSeqGo]
    cases hA : applyArgs args with
    | error e => simp
    | ok l =>
      dsimp only
      cases hC : cbs h.cb h.ctx l with
      | error e => simp
      | ok r =>
        rw [ih (aset stamps h.id handled) (aset stamps2 h.id handled)
          (results ++ [r]) (results2 ++ [r]) (tr ++ [(h.cb, h.ctx, l)])]
        rw [ih (aset stamps2 h.id handled) (aset stamps2 h.id handled)
          (results2 ++ [r]) (results2 ++ [r]) ([] ++ [(h.cb, h.ctx, l)])]
        simp

/-- Interleaving arbitrary state mutations between the candidate turns
of the emitter sequence runner does not change the invocation trace:
the runner walks the snapshot it captured, not the live registry. -/
theorem emSeqInter_trace (cbs : Cbs) (handled : Nat) (args : V) (cands : List HNode)
    (muts : List (EmState → EmState)) (st : EmState) (stamps : List (Nat × Nat)) :
    (emSeqInter cbs handled args cands muts st).1 =
      (emSeqGo cbs handled args cands stamps [] []).trace := by
  induction cands generalizing muts st stamps with
  | nil => simp [emSeqInter, emSeqGo]
  | cons h t ih =>
    simp only [emSeqInter, emSeqGo]
    cases hA : applyArgs args with
    | error e => simp
    | ok l =>
      dsimp only
      cases hC : cbs h.cb h.ctx l with
      | error e => simp
      | ok r =>
        rw [emSeqGo_trace_acc cbs handled args t (aset stamps h.id handled)
          (aset stamps h.id handled) ([] ++ [r]) [] ([] ++ [(h.cb, h.ctx, l)])]
        simp only [List.nil_append, List.singleton_append]
        exact congrArg (List.cons _) (ih _ _ _)

/-- The trace of the emitter sequence runner is the invocation of an
initial segment of the candidate snapshot, each applied to the same
destructured argument list. -/
theorem emSeqGo_trace_take (cbs : Cbs) (handled : Nat) (args : V) (cands : List HNode)
    (stamps : List (Nat × Nat)) :
    ∃ k : Nat, (emSeqGo cbs handled args cands stamps [] []).trace =
      (cands.take k).map (fun h => (h.cb, h.ctx, (applyArgs args).toOption.getD [])) := by
  induction cands generalizing stamps with
  | nil => exact ⟨0, by simp [emSeqGo]⟩
  | cons h t ih =>
    simp only [emSeqGo]
    cases hA : applyArgs args with
    | error e => exact ⟨0, by simp⟩
    | ok l =>
      dsimp only
      cases hC : cbs h.cb h.ctx l with
      | error e => exact ⟨1, by simp [hA, Except.toOption]⟩
      | ok r =>
        obtain ⟨k, hk⟩ := ih (aset stamps h.id handled)
        refine ⟨k + 1, ?_⟩
        rw [emSeqGo_trace_acc cbs handled args t (aset stamps h.id handled)
          (aset stamps h.id handled) ([] ++ [r]) [] ([] ++ [(h.cb, h.ctx, l)])]
        simp [hk, hA, Except.toOption]

/-- When every candidate's callback succeeds, the emitter sequence
runner invokes each candidate in order with the same argument list,
collects the results in order, memorizes the original arguments and
resolves with the results array. -/
theorem emSeqGo_all_ok (cbs : Cbs) (handled : Nat) (l : List V) (cands : List HNode)
    (stamps : List (Nat × Nat)) (results : List V) (tr : List Inv) (f : HNode → V)
    (hok : ∀ h ∈ cands, cbs h.cb h.ctx l = .ok (f h)) :
    emSeqGo cbs handled (.arr l) cands stamps results tr =
      ⟨.ok (.arr (results ++ cands.map f)),
        cands.foldl (fun s h => aset s h.id handled) stamps,
        some (.arr l),
        tr ++ cands.map (fun h => (h.cb, h.ctx, l))⟩ := by
  induction cands generalizing stamps results tr with
  | nil => simp [emSeqGo]
  | cons h t ih =>
    have hh := hok h (by simp)
    simp only [emSeqGo, applyArgs]
    rw [hh]
    dsimp only
    rw [ih _ _ _ (fun h' hm => hok h' (by simp [hm]))]
    simp

/-- With no phase map, no candidate is blocked. -/
theorem blocked_nil (h : HNode) : blocked [] h = false := by
  cases hc : h.ctx <;> simp [blocked, alook, hc]

/-- If the emitter sequence runner's promise rejects, the MEMORY write
never happened. -/
theorem emSeqGo_err_mem (cbs : Cbs) (handled : Nat) (args : V) (cands : List HNode)
    (stamps : List (Nat × Nat)) (results : List V) (tr : List Inv) (e : JsErr)
    (h : (emSeqGo cbs handled args cands stamps results tr).res = .error e) :
    (emSeqGo cbs handled args cands stamps results tr).memWrite = none := by
  induction cands generalizing stamps results tr with
  | nil => simp [emSeqGo] at h
  | cons hd t ih =>
    simp only [emSeqGo] at h ⊢
    cases hA : applyArgs args with
    | error e2 => simp [hA]
    | ok l =>
      rw [hA] at h
      dsimp only at h ⊢
      cases hC : cbs hd.cb hd.ctx l with
      | error e2 => simp [hC]
      | ok r =>
        rw [hC] at h
        exact ih _ _ _ h

/-- Likewise for the hub's phase-aware sequence runner. -/
theorem hubSeqGo_err_mem (cbs : Cbs) (ph : List (Nat × String)) (handled : Nat) (args : V)
    (cands : List HNode) (stamps : List (Nat × Nat)) (results : List V) (tr : List Inv) (e : JsErr)
    (h : (hubSeqGo cbs ph handled args cands stamps results tr).res = .error e) :
    (hubSeqGo cbs ph handled args cands stamps results tr).memWrite = none := by
  induction cands generalizing stamps results tr with
  | nil => simp [hubSeqGo] at h
  | cons hd t ih =>
    by_cases hb : blocked ph hd
    · simp only [hubSeqGo, hb, if_true] at h ⊢
      exact ih _ _ _ h
    · have hb' : blocked ph hd = false := by simpa using hb
      simp only [hubSeqGo, hb', Bool.false_eq_true, if_false] at h ⊢
      cases hA : applyArgs args with
      | error e2 => simp [hA]
      | ok l =>
        rw [hA] at h
        dsimp only at h ⊢
        cases hC : cbs hd.cb hd.ctx l with
        | error e2 => simp [hC]
        | ok r =>
          rw [hC] at h
          exact ih _ _ _ h

/-- Likewise for the pipeline runner. -/
theorem pipeGo_err_mem (cbs : Cbs) (ph : List (Nat × String)) (handled : Nat) (args : V)
    (cands : List HNode) (stamps : List (Nat × Nat)) (tr : List Inv) (e : JsErr)
    (h : (pipeGo cbs ph handled args cands stamps tr).res = .error e) :
    (pipeGo cbs ph handled args cands stamps tr).memWrite = none := by
  induction cands generalizing args stamps tr with
  | nil => simp [pipeGo] at h
  | cons hd t ih =>
    by_cases hb : blocked ph hd
    · simp only [pipeGo, hb, if_true] at h ⊢
      exact ih _ _ _ h
    · have hb' : blocked ph hd = false := by simpa using hb
      simp only [pipeGo, hb', Bool.false_eq_true, if_false] at h ⊢
      cases hA : applyArgs args with
      | error e2 => simp [hA]
      | ok l =>
        rw [hA] at h
        dsimp only at h ⊢
        cases hC : cbs hd.cb hd.ctx l with
        | error e2 => simp [hC]
        | ok r =>
          rw [hC] at h
          exact ih _ _ _ h

/-- A runner whose rejection implies it did not write MEMORY. -/
def MemSafe (r : RunnerT) : Prop :=
  ∀ (cbs : Cbs) (ph : List (Nat × String)) (cands : List HNode) (handled : Nat)
    (args : V) (stamps : List (Nat × Nat)) (e : JsErr),
    (r cbs ph cands handled args stamps).res = .error e →
    (r cbs ph cands handled args stamps).memWrite = none

theorem memSafe_emSeqR : MemSafe emSeqR :=
  fun cbs _ cands handled args stamps e h => emSeqGo_err_mem cbs handled args cands stamps [] [] e h

theorem memSafe_hubSeqR : MemSafe hubSeqR :=
  fun cbs ph cands handled args stamps e h => hubSeqGo_err_mem cbs ph handled args cands stamps [] [] e h

theorem memSafe_pipeR : MemSafe pipeR :=
  fun cbs ph cands handled args stamps e h => pipeGo_err_mem cbs ph handled args cands stamps [] e h

/-- Every runner reachable from the emitter's table is memory-safe. -/
theorem emitterTable_memSafe (rn : String) (r : RunnerT)
    (h : alook emitterTable.named rn = some r) : MemSafe r := by
  simp only [emitterTable, alook] at h
  split at h
  · exact (Option.some.inj h) ▸ memSafe_emSeqR
  · split at h
    · exact (Option.some.inj h) ▸ memSafe_emSeqR
    · simp [alook] at h

/-- Every runner reachable from the hub's table is memory-safe. -/
theorem hubTable_memSafe (rn : String) (r : RunnerT)
    (h : alook hubTable.named rn = some r) : MemSafe r := by
  simp only [hubTable, alook] at h
  split at h
  · exact (Option.some.inj h) ▸ memSafe_pipeR
  · split at h
    · exact (Option.some.inj h) ▸ memSafe_hubSeqR
    · split at h
      · exact (Option.some.inj h) ▸ memSafe_pipeR
      · simp [alook] at h

/-- A memory-safe runner's failing `emit` dispatch leaves every peek
unchanged. -/
theorem emitDispatch_peek (r : RunnerT) (hr : MemSafe r) (cbs : Cbs) (st : EmState)
    (ev : String) (args : List V) (e : JsErr) (ev2 : String)
    (h : (emitDispatch r cbs st ev args).res = .error e) :
    peekE (emitDispatch r cbs st ev args).st ev2 = peekE st ev2 := by
  simp only [emitDispatch] at h ⊢
  rw [hr _ _ _ _ _ _ _ h]
  by_cases hev : ev2 = ev
  · subst hev
    simp only [peekE, alook_aset_self]
    cases hch : alook st.events ev2 <;> simp [hch]
  · simp [peekE, alook_aset_ne _ _ _ _ hev]

/-- A memory-safe runner's failing `reemit` dispatch leaves every peek
unchanged. -/
theorem reemitDispatch_peek (r : RunnerT) (hr : MemSafe r) (cbs : Cbs) (st : EmState)
    (ev : String) (senile : Bool) (ctx cb : Option Nat) (e : JsErr) (ev2 : String)
    (h : (reemitDispatch r cbs st ev senile ctx cb).res = .error e) :
    peekE (reemitDispatch r cbs st ev senile ctx cb).st ev2 = peekE st ev2 := by
  simp only [reemitDispatch] at h ⊢
  cases hch : alook st.events ev with
  | some ch =>
    rw [hch] at h
    dsimp only at h ⊢
    rw [hr _ _ _ _ _ _ _ h]
    by_cases hev : ev2 = ev
    · subst hev
      simp [peekE, alook_aset_self, hch]
    · simp [peekE, alook_aset_ne _ _ _ _ hev]
  | none =>
    rw [hch] at h
    dsimp only at h ⊢
    rw [hr _ _ _ _ _ _ _ h]
    by_cases hev : ev2 = ev
    · subst hev
      simp [peekE, alook_aset_self, hch]
    · simp [peekE, alook_aset_ne _ _ _ _ hev]

/-- `on` never changes any chain's epoch counter. -/
theorem chainHandled_onE (st : EmState) (ev : String) (ctx cb : Option Nat) (ev2 : String) :
    chainHandled (onE st ev ctx cb).2 ev2 = chainHandled st ev2 := by
  cases cb with
  | none => rfl
  | some c =>
    simp only [onE, chainHandled]
    cases hch : alook st.events ev with
    | some ch =>
      dsimp only
      by_cases hev : ev2 = ev
      · subst hev
        simp [alook_aset_self, hch]
      · simp [alook_aset_ne _ _ _ _ hev]
    | none =>
      dsimp only
      by_cases hev : ev2 = ev
      · subst hev
        simp [alook_aset_self, hch]
      · simp [alook_aset_ne _ _ _ _ hev]

/-- `off` never changes any chain's epoch counter. -/
theorem chainHandled_offE (st : EmState) (ev : String) (ctx cb : Option Nat) (ev2 : String) :
    chainHandled (offE st ev ctx cb) ev2 = chainHandled st ev2 := by
  simp only [offE, chainHandled]
  cases hch : alook st.events ev with
  | none => rfl
  | some ch =>
    dsimp only
    by_cases hev : ev2 = ev
    · subst hev
      simp [alook_aset_self, hch]
    · simp [alook_aset_ne _ _ _ _ hev]

/-- A `reemit` dispatch reuses the chain's epoch: no counter changes. -/
theorem chainHandled_reemitDispatch (r : RunnerT) (cbs : Cbs) (st : EmState) (ev : String)
    (senile : Bool) (ctx cb : Option Nat) (ev2 : String) :
    chainHandled (reemitDispatch r cbs st ev senile ctx cb).st ev2 = chainHandled st ev2 := by
  simp only [reemitDispatch, chainHandled]
  cases hch : alook st.events ev with
  | some ch =>
    dsimp only
    by_cases hev : ev2 = ev
    · subst hev
      simp [alook_aset_self, hch]
    · simp [alook_aset_ne _ _ _ _ hev]
  | none =>
    dsimp only
    by_cases hev : ev2 = ev
    · subst hev
      simp [alook_aset_self, hch]
    · simp [alook_aset_ne _ _ _ _ hev]

/-- `reemit` (with any runner table) never changes any chain's epoch. -/
theorem chainHandled_reemitWith (tbl : RTable) (cbs : Cbs) (st : EmState) (ev : String)
    (senile : Bool) (ctx cb : Option Nat) (ev2 : String) :
    chainHandled (reemitWith tbl cbs st ev senile ctx cb).st ev2 = chainHandled st ev2 := by
  simp only [reemitWith]
  cases hp : reRunnerExec ev.toList with
  | none => exact chainHandled_reemitDispatch _ _ _ _ _ _ _ _
  | some pr =>
    obtain ⟨evC, rnC⟩ := pr
    dsimp only
    cases hn : alook tbl.named (String.mk rnC) with
    | none => rfl
    | some r => exact chainHandled_reemitDispatch _ _ _ _ _ _ _ _

/-- An `emit` dispatch bumps the target chain's epoch by exactly one. -/
theorem chainHandled_emitDispatch_self (r : RunnerT) (cbs : Cbs) (st : EmState) (ev : String)
    (args : List V) :
    chainHandled (emitDispatch r cbs st ev args).st ev = chainHandled st ev + 1 := by
  simp only [emitDispatch, chainHandled]
  cases hch : alook st.events ev <;> simp [alook_aset_self, hch]

/-- An `emit` dispatch leaves every other chain's epoch untouched. -/
theorem chainHandled_emitDispatch_other (r : RunnerT) (cbs : Cbs) (st : EmState) (ev : String)
    (args : List V) (ev2 : String) (hev : ev2 ≠ ev) :
    chainHandled (emitDispatch r cbs st ev args).st ev2 = chainHandled st ev2 := by
  simp [emitDispatch, chainHandled, alook_aset_ne _ _ _ _ hev]

/-- When `emit` throws `unknown runner`, the state is untouched. -/
theorem emitWith_unknown (tbl : RTable) (cbs : Cbs) (st : EmState) (ev : String) (args : List V)
    (evC rnC : List Char) (hp : reRunnerExec ev.toList = some (evC, rnC))
    (hn : alook tbl.named (String.mk rnC) = none) :
    emitWith tbl cbs st ev args = ⟨.error (.unknownRunner (String.mk rnC)), st, []⟩ := by
  have hp' : reRunnerExec ev.data = some (evC, rnC) := hp
  simp [emitWith, hp', hn]

/-- When `reemit` throws `unknown runner`, the state is untouched. -/
theorem reemitWith_unknown (tbl : RTable) (cbs : Cbs) (st : EmState) (ev : String)
    (senile : Bool) (ctx cb : Option Nat)
    (evC rnC : List Char) (hp : reRunnerExec ev.toList = some (evC, rnC))
    (hn : alook tbl.named (String.mk rnC) = none) :
    reemitWith tbl cbs st ev senile ctx cb = ⟨.error (.unknownRunner (String.mk rnC)), st, []⟩ := by
  have hp' : reRunnerExec ev.data = some (evC, rnC) := hp
  simp [reemitWith, hp', hn]

/-- A dispatching `emit` bumps the parsed target's epoch by one and no
other. -/
theorem chainHandled_emitWith (tbl : RTable) (cbs : Cbs) (st : EmState) (ev : String)
    (args : List V) (ev' : String) (h : emitTarget tbl ev = some ev') :
    chainHandled (emitWith tbl cbs st ev args).st ev' = chainHandled st ev' + 1 ∧
      ∀ ev2, ev2 ≠ ev' → chainHandled (emitWith tbl cbs st ev args).st ev2 = chainHandled st ev2 := by
  simp only [emitTarget, emitWith] at h ⊢
  cases hp : reRunnerExec ev.toList with
  | none =>
    rw [hp] at h
    dsimp only at h
    obtain rfl : ev = ev' := Option.some.inj h
    exact ⟨chainHandled_emitDispatch_self _ _ _ _ _,
      fun ev2 h2 => chainHandled_emitDispatch_other _ _ _ _ _ _ h2⟩
  | some pr =>
    obtain ⟨evC, rnC⟩ := pr
    rw [hp] at h
    dsimp only at h ⊢
    cases hn : alook tbl.named (String.mk rnC) with
    | none => rw [hn] at h; exact absurd h (by simp)
    | some r =>
      rw [hn] at h
      dsimp only at h
      obtain rfl : String.mk evC = ev' := Option.some.inj h
      exact ⟨chainHandled_emitDispatch_self _ _ _ _ _,
        fun ev2 h2 => chainHandled_emitDispatch_other _ _ _ _ _ _ h2⟩

/-- A non-dispatching `emit` (unknown runner) leaves the state alone. -/
theorem emitWith_target_none (tbl : RTable) (cbs : Cbs) (st : EmState) (ev : String)
    (args : List V) (h : emitTarget tbl ev = none) :
    (emitWith tbl cbs st ev args).st = st := by
  simp only [emitTarget, emitWith] at h ⊢
  cases hp : reRunnerExec ev.toList with
  | none => rw [hp] at h; simp at h
  | some pr =>
    obtain ⟨evC, rnC⟩ := pr
    rw [hp] at h
    dsimp only at h ⊢
    cases hn : alook tbl.named (String.mk rnC) with
    | none => rfl
    | some r => rw [hn] at h; simp at h

/-- One-step unfolding of RE_RUNNER's matcher on a nonempty list. -/
theorem reRunnerExec_cons (a : Char) (rest : List Char) :
    reRunnerExec (a :: rest) =
      (match reRunnerExec rest with
       | some (p, r) => some (a :: p, r)
       | none =>
         match rest with
         | b :: c :: w =>
           if b = ':' && isWordChar c then some ([a], (c :: w).takeWhile isWordChar) else none
         | _ => none) := rfl

/-- RE_RUNNER never matches a colon-free string. -/
theorem reRunnerExec_no_colon (l : List Char) (h : ∀ c ∈ l, c ≠ ':') :
    reRunnerExec l = none := by
  induction l with
  | nil => rfl
  | cons a rest ih =>
    have hrest : ∀ c ∈ rest, c ≠ ':' := fun c hc => h c (List.mem_cons_of_mem _ hc)
    simp only [reRunnerExec, ih hrest]
    cases rest with
    | nil => rfl
    | cons b rest2 =>
      cases rest2 with
      | nil => rfl
      | cons c w =>
        have hb : b ≠ ':' := hrest b (by simp)
        simp [hb]

/-- takeWhile of an all-satisfying list is the list itself. -/
theorem takeWhile_all (p : Char → Bool) (l : List Char) (h : ∀ c ∈ l, p c = true) :
    l.takeWhile p = l := by
  induction l with
  | nil => rfl
  | cons a rest ih =>
    have ha := h a (by simp)
    simp [List.takeWhile_cons, ha, ih (fun c hc => h c (List.mem_cons_of_mem _ hc))]

/-- A word character is never a colon. -/
theorem isWordChar_ne_colon (c : Char) (h : isWordChar c = true) : c ≠ ':' := by
  intro hc
  subst hc
  exact absurd h (by decide)

/-- RE_RUNNER on `prefix-part ++ ":" ++ word-run`: the match splits at
that colon (the last colon followed by a word character, by greediness)
and captures the whole word run. -/
theorem reRunnerExec_split (a : Char) (p r : List Char) (hrne : r ≠ [])
    (hw : ∀ c ∈ r, isWordChar c = true) :
    reRunnerExec ((a :: p) ++ ':' :: r) = some (a :: p, r) := by
  have hrcolon : ∀ c ∈ r, c ≠ ':' := fun c hc => isWordChar_ne_colon c (hw c hc)
  induction p generalizing a with
  | nil =>
    have h1 : reRunnerExec (':' :: r) = none := by
      cases r with
      | nil => rfl
      | cons c w =>
        have hnc : reRunnerExec (c :: w) = none := reRunnerExec_no_colon _ hrcolon
        have hcne : c ≠ ':' := hrcolon c (by simp)
        rw [reRunnerExec_cons, hnc]
        cases w with
        | nil => rfl
        | cons c2 w2 => simp [hcne]
    cases r with
    | nil => exact absurd rfl hrne
    | cons c w =>
      have hc := hw c (by simp)
      have htw : List.takeWhile isWordChar (c :: w) = c :: w := takeWhile_all _ _ hw
      simp only [List.cons_append, List.nil_append]
      rw [reRunnerExec_cons, h1]
      simp [hc, htw]
  | cons a2 p2 ih =>
    have h2 := ih a2
    simp only [List.cons_append] at h2 ⊢
    rw [reRunnerExec_cons, h2]

/-- The abort behaviour of the emitter sequence runner: once a
candidate's callback fails, the run stops with that failure; the trace
covers exactly the successful prefix plus the failing candidate; the
candidates after the failure are never invoked. -/
theorem emSeqGo_abort (cbs : Cbs) (handled : Nat) (l : List V) (f : HNode → V)
    (pre : List HNode) (hh : HNode) (rest : List HNode)
    (stamps : List (Nat × Nat)) (results : List V) (tr : List Inv) (e : JsErr)
    (hpre : ∀ h' ∈ pre, cbs h'.cb h'.ctx l = .ok (f h'))
    (hfail : cbs hh.cb hh.ctx l = .error e) :
    emSeqGo cbs handled (.arr l) (pre ++ hh :: rest) stamps results tr =
      ⟨.error e, (pre ++ [hh]).foldl (fun s h => aset s h.id handled) stamps, none,
        tr ++ pre.map (fun h => (h.cb, h.ctx, l)) ++ [(hh.cb, hh.ctx, l)]⟩ := by
  induction pre generalizing stamps results tr with
  | nil =>
    simp only [List.nil_append, emSeqGo, applyArgs]
    rw [hfail]
    simp
  | cons h t ih =>
    have hh1 := hpre h (by simp)
    simp only [List.cons_append, emSeqGo, applyArgs]
    rw [hh1]
    dsimp only
    rw [List.append_eq]
    rw [ih _ _ _ (fun h' hm => hpre h' (by simp [hm]))]
    simp

/-- The abort behaviour of the pipeline runner (no phase map, so no
candidate is skipped; the successful prefix returns undefined so the
threaded arguments stay fixed). -/
theorem pipeGo_abort (cbs : Cbs) (handled : Nat) (l : List V)
    (pre : List HNode) (hh : HNode) (rest : List HNode)
    (stamps : List (Nat × Nat)) (tr : List Inv) (e : JsErr)
    (hpre : ∀ h' ∈ pre, cbs h'.cb h'.ctx l = .ok .undefined)
    (hfail : cbs hh.cb hh.ctx l = .error e) :
    pipeGo cbs [] handled (.arr l) (pre ++ hh :: rest) stamps tr =
      ⟨.error e, (pre ++ [hh]).foldl (fun s h => aset s h.id handled) stamps, none,
        tr ++ pre.map (fun h => (h.cb, h.ctx, l)) ++ [(hh.cb, hh.ctx, l)]⟩ := by
  induction pre generalizing stamps tr with
  | nil =>
    simp only [List.nil_append, pipeGo, blocked_nil, Bool.false_eq_true, if_false, applyArgs]
    rw [hfail]
    simp
  | cons h t ih =>
    have hh1 := hpre h (by simp)
    simp only [List.cons_append, pipeGo, blocked_nil, Bool.false_eq_true, if_false, applyArgs]
    rw [hh1]
    dsimp only
    rw [List.append_eq]
    rw [ih _ _ (fun h' hm => hpre h' (by simp [hm]))]
    simp

/-- The reemit candidate scan is a filter: matching handlers whose
stamp differs from the epoch, or all matching handlers when senile. -/
theorem reemitCands_filter (ctx cb : Option Nat) (handled : Nat) (senile : Bool)
    (stamps : List (Nat × Nat)) (hs : List HNode) :
    reemitCands ctx cb handled senile stamps hs =
      hs.filter (fun h => hMatches ctx cb h &&
        (senile || !(alook stamps h.id == some handled))) := by
  induction hs with
  | nil => rfl
  | cons h t ih =>
    have hcond : ∀ (m s q : Bool), (m && !(q && !s)) = (m && (s || !q)) := by decide
    simp only [reemitCands, List.filter_cons, ih, hcond]

/-- If a failing dispatch went through `emitWith` over a table of
memory-safe runners, every peek is unchanged. -/
theorem emitWith_err_peek (tbl : RTable)
    (hn : ∀ rn r, alook tbl.named rn = some r → MemSafe r) (hd : MemSafe tbl.dflt)
    (cbs : Cbs) (st : EmState) (ev : String) (args : List V) (e : JsErr) (ev2 : String)
    (h : (emitWith tbl cbs st ev args).res = .error e) :
    peekE (emitWith tbl cbs st ev args).st ev2 = peekE st ev2 := by
  simp only [emitWith] at h ⊢
  cases hp : reRunnerExec ev.toList with
  | none =>
    rw [hp] at h
    exact emitDispatch_peek _ hd _ _ _ _ _ _ h
  | some pr =>
    obtain ⟨evC, rnC⟩ := pr
    rw [hp] at h
    dsimp only at h ⊢
    cases hr : alook tbl.named (String.mk rnC) with
    | none => rfl
    | some r =>
      rw [hr] at h
      exact emitDispatch_peek r (hn _ _ hr) _ _ _ _ _ _ h

/-- If a failing replay went through `reemitWith` over a table of
memory-safe runners, every peek is unchanged. -/
theorem reemitWith_err_peek (tbl : RTable)
    (hn : ∀ rn r, alook tbl.named rn = some r → MemSafe r) (hd : MemSafe tbl.dflt)
    (cbs : Cbs) (st : EmState) (ev : String) (senile : Bool) (ctx cb : Option Nat)
    (e : JsErr) (ev2 : String)
    (h : (reemitWith tbl cbs st ev senile ctx cb).res = .error e) :
    peekE (reemitWith tbl cbs st ev senile ctx cb).st ev2 = peekE st ev2 := by
  simp only [reemitWith] at h ⊢
  cases hp : reRunnerExec ev.toList with
  | none =>
    rw [hp] at h
    exact reemitDispatch_peek _ hd _ _ _ _ _ _ _ _ h
  | some pr =>
    obtain ⟨evC, rnC⟩ := pr
    rw [hp] at h
    dsimp only at h ⊢
    cases hr : alook tbl.named (String.mk rnC) with
    | none => rfl
    | some r =>
      rw [hr] at h
      exact reemitDispatch_peek r (hn _ _ hr) _ _ _ _ _ _ _ _ h

/-! ## Claim theorems -/

/-- C1, code evaluated at the failing input: in a pipeline dispatch with
two handlers where the first returns the scalar 5, the claim (and the
source's own doc comment) says the second handler is invoked with (5);
the code instead feeds the scalar to `Function.prototype.apply` as the
argArray, which raises a TypeError, so the dispatch rejects and the
second handler is never invoked. -/
theorem c1_pipeline_scalar :
    (publishH cbs0 stAB "evt" []).res = .error .typeError ∧
    (publishH cbs0 stAB "evt" []).trace = [(1, none, [])] :=
  ⟨rfl, rfl⟩

/-- C2, counterexample: a handler whose bound context reports phase
"initializing" is NOT skipped — RE_PHASE only matches
initialize/initialized/finalize/finalized — so the publish invokes it,
appends its result and sets its handled stamp, contradicting the
claimed phase list. -/
theorem c2_initializing_invoked :
    (publishH cbs0 stP "evt" []).res = .ok (.num 9) ∧
    (publishH cbs0 stP "evt" []).trace = [(7, some 1, [])] ∧
    alook (publishH cbs0 stP "evt" []).st.stamps 0 = some 1 :=
  ⟨rfl, rfl, rfl⟩

/-- C2, amended: in both hub runners every candidate whose bound
context is in a blocked phase is transparently dropped (not stamped,
not invoked, no result recorded, iteration continues), where blocked
means the context's phase is exactly one of "initialize",
"initialized", "finalize", "finalized". -/
theorem c2_phase_skip :
    (∀ (cbs : Cbs) (ph : List (Nat × String)) (handled : Nat) (args : V) (cands : List HNode)
      (stamps : List (Nat × Nat)) (results : List V) (tr : List Inv),
      hubSeqGo cbs ph handled args cands stamps results tr =
        hubSeqGo cbs ph handled args (cands.filter (fun h => !blocked ph h)) stamps results tr) ∧
    (∀ (cbs : Cbs) (ph : List (Nat × String)) (handled : Nat) (args : V) (cands : List HNode)
      (stamps : List (Nat × Nat)) (tr : List Inv),
      pipeGo cbs ph handled args cands stamps tr =
        pipeGo cbs ph handled args (cands.filter (fun h => !blocked ph h)) stamps tr) ∧
    (∀ (ph : List (Nat × String)) (h : HNode),
      blocked ph h = true ↔ ∃ c p, h.ctx = some c ∧ alook ph c = some p ∧
        (p = "initialize" ∨ p = "initialized" ∨ p = "finalize" ∨ p = "finalized")) := by
  refine ⟨hubSeqGo_filter, pipeGo_filter, ?_⟩
  intro ph h
  cases hc : h.ctx with
  | none => simp [blocked, hc]
  | some c =>
    cases ha : alook ph c with
    | none => simp [blocked, hc, ha]
    | some p =>
      simp only [blocked, hc, ha, rePhase]
      simp only [Bool.or_eq_true, beq_iff_eq]
      constructor
      · intro hd
        exact ⟨c, p, rfl, ha, by tauto⟩
      · rintro ⟨c2, x, hcc, hx, hd⟩
        obtain rfl : c = c2 := Option.some.inj hcc
        rw [ha] at hx
        obtain rfl : p = x := Option.some.inj hx
        tauto

/-- C3, counterexample: `emit("a:b:sequence")` does not fail with
UnknownRunner on runner name "b:sequence" (the first-colon split the
claim describes); the greedy regex splits at the last colon, finds the
registered runner "sequence", dispatches, and creates chain "a:b" with
epoch 1. -/
theorem c3_last_colon_dispatch :
    (emitE cbs0 st0 "a:b:sequence" []).res = .ok (.arr []) ∧
    chainHandled (emitE cbs0 st0 "a:b:sequence" []).st "a:b" = 1 :=
  ⟨rfl, rfl⟩

/-- C3, amended: the `name:runner` suffix is parsed by RE_RUNNER, which
splits at the LAST colon that is immediately followed by a word
character (capture 2 being the maximal word run after it); and when the
named runner is absent from the table, emit and reemit fail with
`unknown runner` synchronously, before the chain or any candidate is
touched. -/
theorem c3_runner_parse :
    (∀ (a : Char) (p r : List Char), r ≠ [] → (∀ c ∈ r, isWordChar c = true) →
      reRunnerExec ((a :: p) ++ ':' :: r) = some (a :: p, r)) ∧
    (∀ (tbl : RTable) (cbs : Cbs) (st : EmState) (ev : String) (args : List V)
      (evC rnC : List Char), reRunnerExec ev.toList = some (evC, rnC) →
      alook tbl.named (String.mk rnC) = none →
      emitWith tbl cbs st ev args = ⟨.error (.unknownRunner (String.mk rnC)), st, []⟩) ∧
    (∀ (tbl : RTable) (cbs : Cbs) (st : EmState) (ev : String) (senile : Bool)
      (ctx cb : Option Nat) (evC rnC : List Char),
      reRunnerExec ev.toList = some (evC, rnC) →
      alook tbl.named (String.mk rnC) = none →
      reemitWith tbl cbs st ev senile ctx cb = ⟨.error (.unknownRunner (String.mk rnC)), st, []⟩) :=
  ⟨reRunnerExec_split,
   fun tbl cbs st ev args evC rnC hp hn => emitWith_unknown tbl cbs st ev args evC rnC hp hn,
   fun tbl cbs st ev senile ctx cb evC rnC hp hn =>
     reemitWith_unknown tbl cbs st ev senile ctx cb evC rnC hp hn⟩

/-- C3 witness: the split lemma at "a:b" ++ ":seq" (the last colon
wins) and the unknown-runner failure at "evt:bogus". -/
theorem c3_runner_parse_witness :
    reRunnerExec (('a' :: [':', 'b']) ++ ':' :: ['s', 'e', 'q']) =
      some ('a' :: [':', 'b'], ['s', 'e', 'q']) ∧
    emitWith emitterTable cbs0 st0 "evt:bogus" [] = ⟨.error (.unknownRunner "bogus"), st0, []⟩ :=
  ⟨c3_runner_parse.1 'a' [':', 'b'] ['s', 'e', 'q'] (by decide) (by decide),
   c3_runner_parse.2.1 emitterTable cbs0 st0 "evt:bogus" [] "evt".toList "bogus".toList rfl rfl⟩

/-- C4: the emitter sequence runner invokes every candidate in order
with the same (destructured) original argument list, collects the
results in invocation order with no gaps, stores the original argument
array as memory at exhaustion and resolves with the full results
array. -/
theorem c4_sequence_runner (cbs : Cbs) (handled : Nat) (l : List V) (cands : List HNode)
    (stamps : List (Nat × Nat)) (f : HNode → V)
    (hok : ∀ h ∈ cands, cbs h.cb h.ctx l = .ok (f h)) :
    (emSeqGo cbs handled (.arr l) cands stamps [] []).trace =
      cands.map (fun h => (h.cb, h.ctx, l)) ∧
    (emSeqGo cbs handled (.arr l) cands stamps [] []).res = .ok (.arr (cands.map f)) ∧
    (emSeqGo cbs handled (.arr l) cands stamps [] []).memWrite = some (.arr l) := by
  rw [emSeqGo_all_ok cbs handled l cands stamps [] [] f hok]
  simp

/-- C4 witness: two candidates, arguments [3]. -/
theorem c4_sequence_runner_witness :
    (emSeqGo cbs0 1 (.arr [.num 3]) [⟨0, none, 2⟩, ⟨1, none, 7⟩] [] [] []).trace
      = [(2, none, [.num 3]), (7, none, [.num 3])] ∧
    (emSeqGo cbs0 1 (.arr [.num 3]) [⟨0, none, 2⟩, ⟨1, none, 7⟩] [] [] []).res
      = .ok (.arr [.undefined, .num 9]) ∧
    (emSeqGo cbs0 1 (.arr [.num 3]) [⟨0, none, 2⟩, ⟨1, none, 7⟩] [] [] []).memWrite
      = some (.arr [.num 3]) := by
  have h := c4_sequence_runner cbs0 1 [.num 3] [⟨0, none, 2⟩, ⟨1, none, 7⟩] []
    (fun h => if h.cb = 7 then .num 9 else .undefined)
    (by intro h hm; fin_cases hm <;> rfl)
  exact ⟨h.1, h.2.1, h.2.2⟩

/-- C5, counterexample: "evt" was subscribed but never dispatched; the
claim says a replay then creates an empty chain and invokes no handler,
but the code replays the subscriber (its stamp, absent, differs from
epoch 0) with the absent memory as arguments. -/
theorem c5_undispatched_replay :
    (reemitE cbs0 stS "evt" false none none).res = .ok (.arr [.num 9]) ∧
    (reemitE cbs0 stS "evt" false none none).trace = [(7, none, [])] :=
  ⟨rfl, rfl⟩

/-- C5, amended: reemit/republish reuses the chain's current epoch (no
chain's counter changes), dispatches the memorized argument value to
exactly the handlers matching the context/callback filter whose stamp
differs from the epoch (or all matching ones when senile), and only
when the event is absent from the registry altogether does it create an
empty epoch-0 chain and invoke nothing. -/
theorem c5_replay (tbl : RTable) (cbs : Cbs) (st : EmState) (ev : String)
    (senile : Bool) (ctx cb : Option Nat) (hp : reRunnerExec ev.toList = none) :
    (∀ ev2, chainHandled (reemitWith tbl cbs st ev senile ctx cb).st ev2 = chainHandled st ev2) ∧
    (∀ ch, alook st.events ev = some ch →
      reemitWith tbl cbs st ev senile ctx cb =
        (let out := tbl.dflt cbs st.phases
            (ch.hs.filter (fun h => hMatches ctx cb h &&
              (senile || !(alook st.stamps h.id == some ch.handled))))
            ch.handled (ch.memory.getD .undefined) st.stamps
        ⟨out.res,
          { st with
            events := aset st.events ev ⟨ch.hs, ch.handled,
              match out.memWrite with | some m => some m | none => ch.memory⟩,
            stamps := out.stamps },
          out.trace⟩)) ∧
    ((tbl = emitterTable ∨ tbl = hubTable) → alook st.events ev = none →
      (reemitWith tbl cbs st ev senile ctx cb).trace = [] ∧
      alook (reemitWith tbl cbs st ev senile ctx cb).st.events ev = some ⟨[], 0, some .undefined⟩) := by
  refine ⟨fun ev2 => chainHandled_reemitWith tbl cbs st ev senile ctx cb ev2, ?_, ?_⟩
  · intro ch hch
    simp only [reemitWith]
    rw [hp]
    simp only [reemitDispatch]
    rw [hch]
    simp only [reemitCands_filter]
  · rintro (rfl | rfl) hch <;>
      (simp only [reemitWith]
       rw [hp]
       simp only [reemitDispatch]
       rw [hch]
       exact ⟨rfl, alook_aset_self _ _ _⟩)

/-- C5 witness: the epoch-preservation conjunct at a dispatched-then-
resubscribed state, and the absent-event conjunct at the empty state. -/
theorem c5_replay_witness :
    chainHandled (reemitWith emitterTable cbs0 stSDB "evt" false none none).st "evt"
      = chainHandled stSDB "evt" ∧
    (reemitWith emitterTable cbs0 st0 "nope" false none none).trace = [] :=
  ⟨(c5_replay emitterTable cbs0 stSDB "evt" false none none rfl).1 "evt",
   ((c5_replay emitterTable cbs0 st0 "nope" false none none rfl).2.2 (Or.inl rfl) rfl).1⟩

/-- C6: when a candidate's callback fails after a prefix of successful
candidates, both the emitter sequence runner and the hub pipeline
runner reject with exactly that failure, the trace ends at the failing
candidate, and none of the remaining candidates is invoked. -/
theorem c6_abort (cbs : Cbs) (handled : Nat) (l : List V) (f : HNode → V)
    (pre : List HNode) (hh : HNode) (rest : List HNode) (stamps : List (Nat × Nat)) (e : JsErr)
    (hfail : cbs hh.cb hh.ctx l = .error e) :
    ((∀ h' ∈ pre, cbs h'.cb h'.ctx l = .ok (f h')) →
      (emSeqGo cbs handled (.arr l) (pre ++ hh :: rest) stamps [] []).res = .error e ∧
      (emSeqGo cbs handled (.arr l) (pre ++ hh :: rest) stamps [] []).trace =
        pre.map (fun h => (h.cb, h.ctx, l)) ++ [(hh.cb, hh.ctx, l)]) ∧
    ((∀ h' ∈ pre, cbs h'.cb h'.ctx l = .ok .undefined) →
      (pipeGo cbs [] handled (.arr l) (pre ++ hh :: rest) stamps []).res = .error e ∧
      (pipeGo cbs [] handled (.arr l) (pre ++ hh :: rest) stamps []).trace =
        pre.map (fun h => (h.cb, h.ctx, l)) ++ [(hh.cb, hh.ctx, l)]) := by
  constructor
  · intro hpre
    rw [emSeqGo_abort cbs handled l f pre hh rest stamps [] [] e hpre hfail]
    simp
  · intro hpre
    rw [pipeGo_abort cbs handled l pre hh rest stamps [] e hpre hfail]
    simp

/-- C6 witness: callback 9 fails between callbacks 2 and 7; callback 7
is never invoked. -/
theorem c6_abort_witness :
    (emSeqGo cbs0 1 (.arr []) [⟨0, none, 2⟩, ⟨1, none, 9⟩, ⟨2, none, 7⟩] [] [] []).res
      = .error (.handlerErr 99) ∧
    (emSeqGo cbs0 1 (.arr []) [⟨0, none, 2⟩, ⟨1, none, 9⟩, ⟨2, none, 7⟩] [] [] []).trace
      = [(2, none, []), (9, none, [])] ∧
    (pipeGo cbs0 [] 1 (.arr []) [⟨0, none, 2⟩, ⟨1, none, 9⟩, ⟨2, none, 7⟩] [] []).res
      = .error (.handlerErr 99) := by
  have h := c6_abort cbs0 1 [] (fun _ => .undefined) [⟨0, none, 2⟩] ⟨1, none, 9⟩ [⟨2, none, 7⟩]
    [] (.handlerErr 99) rfl
  have h1 := h.1 (by intro h' hm; fin_cases hm; rfl)
  have h2 := h.2 (by intro h' hm; fin_cases hm; rfl)
  exact ⟨h1.1, h1.2, h2.1⟩

/-- C7: the chain-level epoch never decreases under any operation or
any sequence of operations; on, off and reemit preserve every chain's
counter exactly; a dispatching emit bumps the parsed target's counter
by exactly one (also on the first emit, 0 to 1) and no other; an emit
that throws `unknown runner` leaves the state untouched. -/
theorem c7_epoch (cbs : Cbs) :
    (∀ (op : Op) (st : EmState) (ev : String),
      chainHandled st ev ≤ chainHandled (opStep cbs op st) ev) ∧
    (∀ (ops : List Op) (st : EmState) (ev : String),
      chainHandled st ev ≤ chainHandled (ops.foldl (fun s o => opStep cbs o s) st) ev) ∧
    (∀ st ev ctx cb ev2, chainHandled (onE st ev ctx cb).2 ev2 = chainHandled st ev2) ∧
    (∀ st ev ctx cb ev2, chainHandled (offE st ev ctx cb) ev2 = chainHandled st ev2) ∧
    (∀ st ev senile ctx cb ev2,
      chainHandled (reemitE cbs st ev senile ctx cb).st ev2 = chainHandled st ev2) ∧
    (∀ st ev args ev', emitTarget emitterTable ev = some ev' →
      chainHandled (emitE cbs st ev args).st ev' = chainHandled st ev' + 1 ∧
      ∀ ev2, ev2 ≠ ev' → chainHandled (emitE cbs st ev args).st ev2 = chainHandled st ev2) ∧
    (∀ st ev args, emitTarget emitterTable ev = none → (emitE cbs st ev args).st = st) := by
  have hop : ∀ (op : Op) (st : EmState) (ev : String),
      chainHandled st ev ≤ chainHandled (opStep cbs op st) ev := by
    intro op st ev
    cases op with
    | opOn ev1 ctx cb => exact le_of_eq (chainHandled_onE st ev1 ctx cb ev).symm
    | opOff ev1 ctx cb => exact le_of_eq (chainHandled_offE st ev1 ctx cb ev).symm
    | opReemit ev1 senile ctx cb =>
      exact le_of_eq (chainHandled_reemitWith emitterTable cbs st ev1 senile ctx cb ev).symm
    | opEmit ev1 args =>
      cases ht : emitTarget emitterTable ev1 with
      | none =>
        have hst : (emitWith emitterTable cbs st ev1 args).st = st :=
          emitWith_target_none emitterTable cbs st ev1 args ht
        simp [opStep, emitE, hst]
      | some ev' =>
        by_cases hev : ev = ev'
        · subst hev
          have h1 := (chainHandled_emitWith emitterTable cbs st ev1 args ev ht).1
          calc chainHandled st ev ≤ chainHandled st ev + 1 := Nat.le_succ _
            _ = chainHandled (emitWith emitterTable cbs st ev1 args).st ev := h1.symm
        · exact le_of_eq
            ((chainHandled_emitWith emitterTable cbs st ev1 args ev' ht).2 ev hev).symm
  refine ⟨hop, ?_, chainHandled_onE, chainHandled_offE,
    fun st ev senile ctx cb ev2 => chainHandled_reemitWith emitterTable cbs st ev senile ctx cb ev2,
    fun st ev args ev' h => chainHandled_emitWith emitterTable cbs st ev args ev' h,
    fun st ev args h => emitWith_target_none emitterTable cbs st ev args h⟩
  intro ops
  induction ops with
  | nil => intro st ev; simp
  | cons o t ih =>
    intro st ev
    exact le_trans (hop o st ev) (ih (opStep cbs o st) ev)

/-- C7 witness: the first emit of a new event takes the counter from 0
to 1. -/
theorem c7_epoch_witness :
    chainHandled (emitE cbs0 st0 "e" []).st "e" = chainHandled st0 "e" + 1 :=
  ((c7_epoch cbs0).2.2.2.2.2.1 st0 "e" [] "e" rfl).1

/-- C8: `off` replaces the chain of the named event by the survivor
scan (epoch and memory untouched, entry kept even when empty), touches
no other event, removes exactly the handlers matching the optional
context/callback filter while survivors keep their order (the scan is a
sublist), and is a no-op on an unknown event. -/
theorem c8_off (st : EmState) (ev : String) (ctx cb : Option Nat) :
    (∀ ev2, alook (offE st ev ctx cb).events ev2 =
      if ev2 = ev then
        (alook st.events ev).map (fun ch => ⟨offScan ctx cb ch.hs, ch.handled, ch.memory⟩)
      else alook st.events ev2) ∧
    (∀ l, offScan ctx cb l = l.filter (fun h => !(hMatches ctx cb h))) ∧
    (∀ l : List HNode, (offScan ctx cb l).Sublist l) ∧
    (alook st.events ev = none → offE st ev ctx cb = st) := by
  have hfilt : ∀ l, offScan ctx cb l = l.filter (fun h => !(hMatches ctx cb h)) := by
    intro l
    induction l with
    | nil => rfl
    | cons h t ih =>
      by_cases hm : hMatches ctx cb h
      · simp [offScan, List.filter_cons, hm, ih]
      · have hm' : hMatches ctx cb h = false := by simpa using hm
        simp [offScan, List.filter_cons, hm', ih]
  refine ⟨?_, hfilt, ?_, ?_⟩
  · intro ev2
    simp only [offE]
    cases hch : alook st.events ev with
    | none =>
      by_cases hev : ev2 = ev
      · subst hev
        simp [hch]
      · simp [hev]
    | some ch =>
      dsimp only
      by_cases hev : ev2 = ev
      · subst hev
        simp [alook_aset_self, hch]
      · simp [alook_aset_ne _ _ _ _ hev, hev]
  · intro l
    rw [hfilt l]
    exact List.filter_sublist l
  · intro h
    simp [offE, h]

/-- C8 witness: `off` on an event that was never subscribed is the
identity. -/
theorem c8_off_witness : offE st0 "x" none none = st0 :=
  (c8_off st0 "x" none none).2.2.2 rfl

/-- C9: the candidate snapshot is immune to concurrent registry
mutation — interleaving arbitrary state mutations (such as on/off
calls) between candidate turns leaves the invocation trace identical to
the undisturbed run, and that trace is the invocation of an initial
segment of the snapshot only: handlers added after the snapshot never
appear, handlers removed after it are still invoked at their turn. -/
theorem c9_snapshot (cbs : Cbs) (handled : Nat) (args : V) (cands : List HNode)
    (muts : List (EmState → EmState)) (st : EmState) (stamps : List (Nat × Nat)) :
    (emSeqInter cbs handled args cands muts st).1 =
      (emSeqGo cbs handled args cands stamps [] []).trace ∧
    ∃ k, (emSeqGo cbs handled args cands stamps [] []).trace =
      (cands.take k).map (fun h => (h.cb, h.ctx, (applyArgs args).toOption.getD [])) :=
  ⟨emSeqInter_trace cbs handled args cands muts st stamps,
   emSeqGo_trace_take cbs handled args cands stamps⟩

/-- C10: a dispatch that rejects (emit, publish, reemit or republish)
leaves every event's memorized value exactly as it was — memory is
written only on snapshot exhaustion. -/
theorem c10_memory (cbs : Cbs) (st : EmState) (ev : String) (args : List V)
    (senile : Bool) (ctx cb : Option Nat) (e : JsErr) (ev2 : String) :
    ((emitE cbs st ev args).res = .error e →
      peekE (emitE cbs st ev args).st ev2 = peekE st ev2) ∧
    ((publishH cbs st ev args).res = .error e →
      peekE (publishH cbs st ev args).st ev2 = peekE st ev2) ∧
    ((reemitE cbs st ev senile ctx cb).res = .error e →
      peekE (reemitE cbs st ev senile ctx cb).st ev2 = peekE st ev2) ∧
    ((republishH cbs st ev ctx cb senile).res = .error e →
      peekE (republishH cbs st ev ctx cb senile).st ev2 = peekE st ev2) :=
  ⟨fun h => emitWith_err_peek emitterTable emitterTable_memSafe memSafe_emSeqR
      cbs st ev args e ev2 h,
   fun h => emitWith_err_peek hubTable hubTable_memSafe memSafe_pipeR
      cbs st ev args e ev2 h,
   fun h => reemitWith_err_peek emitterTable emitterTable_memSafe memSafe_emSeqR
      cbs st ev senile ctx cb e ev2 h,
   fun h => reemitWith_err_peek hubTable hubTable_memSafe memSafe_pipeR
      cbs st ev senile ctx cb e ev2 h⟩

/-- C10 witness: after a dispatch rejected by callback 9, the memorized
[1] from the earlier successful dispatch is still what peek returns. -/
theorem c10_memory_witness :
    peekE (emitE cbs0 stF "evt" [.num 4]).st "evt" = peekE stF "evt" :=
  (c10_memory cbs0 stF "evt" [.num 4] false none none (.handlerErr 99) "evt").1 rfl

end Troop
